import Mathlib

/-!
Verification development for the web3auth-algorand adapter layer of the
RwaAdvancedTemplate repository.

The TypeScript sources are shallowly embedded:
  * JS strings are `List Char`, JS `Uint8Array`s are `List Nat` (each entry a
    byte value `< 256`), JS `bigint` results of the amount codec are `Nat`
    (the codec only produces non-negative integers).
  * fallible functions (ones that `throw`) return `Except`.
  * the external `algosdk` / Web3Auth primitives that the adapter calls are
    abstracted as explicit function parameters (bundled in structures), with
    the contracts the spec states about them taken as hypotheses.
-/

namespace RwaAdapter

/-! ### JS string primitives -/

/-- The whitespace characters removed by JS `String.prototype.trim`
(ECMA-262 TrimString): the WhiteSpace production (TAB, VT, FF, SP, NBSP,
ZWNBSP/BOM and every Space_Separator code point — OGHAM SPACE MARK
U+1680, U+2000–U+200A, NARROW NO-BREAK SPACE U+202F, MEDIUM MATHEMATICAL
SPACE U+205F, IDEOGRAPHIC SPACE U+3000) together with the LineTerminator
production (LF, CR, LS, PS). -/
def isJsWhitespace (c : Char) : Bool :=
  c.toNat = 32 || c.toNat = 9 || c.toNat = 10 || c.toNat = 11 ||
  c.toNat = 12 || c.toNat = 13 || c.toNat = 160 || c.toNat = 5760 ||
  decide (8192 ≤ c.toNat ∧ c.toNat ≤ 8202) || c.toNat = 8232 ||
  c.toNat = 8233 || c.toNat = 8239 || c.toNat = 8287 ||
  c.toNat = 12288 || c.toNat = 65279

/-- JS `s.trim()`: strip leading and trailing whitespace. -/
def jsTrim (s : List Char) : List Char :=
  ((s.dropWhile isJsWhitespace).reverse.dropWhile isJsWhitespace).reverse

/-- JS `s.split('.')`: split on every occurrence of `'.'`; `"".split('.')`
is `[""]`, hence the base case `[[]]`. -/
def splitOnDot : List Char → List (List Char)
  | [] => [[]]
  | c :: rest =>
    if c = '.' then [] :: splitOnDot rest
    else (splitOnDot rest).modifyHead (fun l => c :: l)

/-- JS `s.padStart(n, c)`. -/
def padStart (s : List Char) (n : Nat) (c : Char) : List Char :=
  List.replicate (n - s.length) c ++ s

/-- JS `s.padEnd(n, c)`. -/
def padEnd (s : List Char) (n : Nat) (c : Char) : List Char :=
  s ++ List.replicate (n - s.length) c

/-- JS `s.slice(0, -d)` for a non-negative count `d`.  JS converts the
argument `-d` with ToIntegerOrInfinity, under which `-0` becomes `+0`:
for `d = 0` the call is `s.slice(0, 0) = ""`, while for `d > 0` it keeps
all but the last `d` characters. -/
def jsSliceDropLast (s : List Char) (d : Nat) : List Char :=
  if d = 0 then [] else s.take (s.length - d)

/-- JS `s.slice(-d)` for a non-negative count `d`.  For `d = 0` this is
`s.slice(0)`, the whole string; for `d > 0` it is the last `d` characters
(the whole string when `d ≥ s.length`). -/
def jsSliceLast (s : List Char) (d : Nat) : List Char :=
  if d = 0 then s else s.drop (s.length - d)

/-! ### Decimal digit strings -/

/-- Numeric value of a digit character (`'0'` ↦ 0, …, `'9'` ↦ 9). -/
def digitVal (c : Char) : Nat :=
  c.toNat - 48

/-- Accumulating decimal parse, the semantics of JS `BigInt(digitString)`
restricted to strings of decimal digits. -/
def digitsToNatAux : List Char → Nat → Nat
  | [], acc => acc
  | c :: rest, acc => digitsToNatAux rest (10 * acc + digitVal c)

/-- Value of a decimal digit string (`digitsToNat "0042" = 42`; the empty
string parses to `0`, which only arises in intermediate positions here). -/
def digitsToNat (s : List Char) : Nat :=
  digitsToNatAux s 0

/-- Digit-extraction loop for `natToDigits`: repeatedly divide by 10,
prepending the digit characters to `acc`.  The first argument is fuel
(structural recursion); `natToDigits` supplies enough of it. -/
def natToDigitsGo : Nat → Nat → List Char → List Char
  | _, 0, acc => acc
  | 0, _, acc => acc
  | fuel + 1, n + 1, acc =>
    natToDigitsGo fuel ((n + 1) / 10) (Nat.digitChar ((n + 1) % 10) :: acc)

/-- Decimal representation of a natural number, most significant digit
first — the semantics of JS `n.toString()` for a non-negative `bigint`. -/
def natToDigits (n : Nat) : List Char :=
  if n = 0 then ['0'] else natToDigitsGo n n []

instance {ε α : Type} [DecidableEq ε] [DecidableEq α] : DecidableEq (Except ε α) := fun
  | .error a, .error b =>
    if h : a = b then isTrue (by rw [h]) else isFalse (fun hc => h (Except.error.inj hc))
  | .error _, .ok _ => isFalse (fun hc => Except.noConfusion hc)
  | .ok _, .error _ => isFalse (fun hc => Except.noConfusion hc)
  | .ok a, .ok b =>
    if h : a = b then isTrue (by rw [h]) else isFalse (fun hc => h (Except.ok.inj hc))

/-- A non-empty all-digit string — the language of the regex `\d+`. -/
def digitsNonempty (s : List Char) : Bool :=
  !s.isEmpty && s.all Char.isDigit

/-- The integer part of a decimal string: everything before the first
`'.'` (the whole string when there is no dot). -/
def intPartOf (s : List Char) : List Char :=
  s.takeWhile (fun c => c != '.')

/-- The fractional part of a decimal string: everything after the first
`'.'` (empty when there is no dot). -/
def fracPartOf (s : List Char) : List Char :=
  match s.dropWhile (fun c => c != '.') with
  | [] => []
  | _ :: f => f

/-- Full-match test for the regex `^\d+(\.\d+)?$` used by `parseAmount`:
one or more digits, optionally followed by a dot and one or more digits. -/
def matchesAmountRegex (s : List Char) : Bool :=
  match s.dropWhile (fun c => c != '.') with
  | [] => digitsNonempty (s.takeWhile (fun c => c != '.'))
  | _ :: frac =>
    digitsNonempty (s.takeWhile (fun c => c != '.')) && digitsNonempty frac

/-- Exact rational value of a decimal string `int.frac` (or plain `int`);
also gives the JS numeric value of strings with an empty integer part such
as `".1"`.  This is the "numerically equal" notion of the round-trip law. -/
def decValue (s : List Char) : ℚ :=
  (digitsToNat (intPartOf s) : ℚ) +
    (digitsToNat (fracPartOf s) : ℚ) / 10 ^ (fracPartOf s).length

/-! ### The amount codec (`parseAmount` / `formatAmount`, src/unnamed/part_000) -/

/-- The three validation failures `parseAmount` can throw. -/
inductive AmountError
  | emptyAmount
  | invalidAmountFormat
  | tooManyDecimalPlaces
deriving DecidableEq

/-- Embedding of `parseAmount(amount, decimals)`:
trim; throw `EmptyAmount` on a blank string; throw `InvalidAmountFormat`
unless the trimmed string fully matches `^\d+(\.\d+)?$`; destructure
`trimmed.split('.')` with defaults `'0'` / `''`; throw
`TooManyDecimalPlaces` when the decimal part is longer than `decimals`;
otherwise right-pad the decimal part to `decimals` digits, concatenate
and parse with `BigInt`. -/
def parseAmount (amount : List Char) (decimals : Nat) : Except AmountError Nat :=
  let trimmed := jsTrim amount
  if trimmed.isEmpty then .error .emptyAmount
  else if !matchesAmountRegex trimmed then .error .invalidAmountFormat
  else
    let parts := splitOnDot trimmed
    let integerPart := parts.headD ['0']
    let decimalPart := parts.getD 1 []
    if decimals < decimalPart.length then .error .tooManyDecimalPlaces
    else
      let paddedDecimal := padEnd decimalPart decimals '0'
      let combined := integerPart ++ paddedDecimal
      .ok (digitsToNat combined)

/-- Embedding of `formatAmount(amount, decimals)` for the non-negative
integer amounts produced by `parseAmount`: stringify; when the digit
string is no longer than `decimals`, return `0.` followed by the string
left-padded with zeros; otherwise splice a dot `decimals` digits from the
right using JS `slice(0, -decimals)` / `slice(-decimals)` (including the
`-0` quirk of those calls when `decimals = 0`). -/
def formatAmount (amount : Nat) (decimals : Nat) : List Char :=
  let amountStr := natToDigits amount
  if amountStr.length ≤ decimals then
    '0' :: '.' :: padStart amountStr decimals '0'
  else
    jsSliceDropLast amountStr decimals ++ '.' :: jsSliceLast amountStr decimals

/-! ### Lemmas: decimal digit strings -/

lemma digitsToNatAux_eq (l : List Char) :
    ∀ acc, digitsToNatAux l acc = acc * 10 ^ l.length + digitsToNat l := by
  induction l with
  | nil => intro acc; simp [digitsToNatAux, digitsToNat]
  | cons c rest ih =>
    intro acc
    show digitsToNatAux rest (10 * acc + digitVal c) =
      acc * 10 ^ (rest.length + 1) + digitsToNatAux rest (10 * 0 + digitVal c)
    rw [ih (10 * acc + digitVal c), ih (10 * 0 + digitVal c)]
    ring

lemma digitsToNat_cons (c : Char) (l : List Char) :
    digitsToNat (c :: l) = digitVal c * 10 ^ l.length + digitsToNat l := by
  have h := digitsToNatAux_eq l (10 * 0 + digitVal c)
  simpa [digitsToNat, digitsToNatAux] using h

lemma digitsToNat_append (a b : List Char) :
    digitsToNat (a ++ b) = digitsToNat a * 10 ^ b.length + digitsToNat b := by
  induction a with
  | nil => simp [digitsToNat, digitsToNatAux]
  | cons c a ih =>
    simp only [List.cons_append, digitsToNat_cons, List.length_append, ih]
    ring

lemma digitsToNat_nil : digitsToNat [] = 0 := rfl

lemma digitsToNat_singleton (c : Char) : digitsToNat [c] = digitVal c := by
  simp [digitsToNat, digitsToNatAux]

lemma digitsToNat_replicate_zero (k : Nat) :
    digitsToNat (List.replicate k '0') = 0 := by
  induction k with
  | zero => rfl
  | succ k ih =>
    have hz : digitVal '0' = 0 := by decide
    rw [List.replicate_succ, digitsToNat_cons, ih, hz]
    simp

lemma digitVal_digitChar (r : Nat) (h : r < 10) :
    digitVal (Nat.digitChar r) = r := by
  interval_cases r <;> decide

lemma isDigit_digitChar (r : Nat) (h : r < 10) :
    (Nat.digitChar r).isDigit = true := by
  interval_cases r <;> decide

lemma natToDigitsGo_acc (fuel : Nat) :
    ∀ n acc, natToDigitsGo fuel n acc = natToDigitsGo fuel n [] ++ acc := by
  induction fuel with
  | zero => intro n acc; cases n <;> simp [natToDigitsGo]
  | succ fuel ih =>
    intro n acc
    cases n with
    | zero => simp [natToDigitsGo]
    | succ m =>
      simp only [natToDigitsGo]
      rw [ih ((m + 1) / 10) (Nat.digitChar ((m + 1) % 10) :: acc),
        ih ((m + 1) / 10) [Nat.digitChar ((m + 1) % 10)]]
      simp

lemma natToDigitsGo_spec (n : Nat) :
    ∀ fuel, 0 < n → n ≤ fuel →
      digitsToNat (natToDigitsGo fuel n []) = n ∧
      (∀ c ∈ natToDigitsGo fuel n [], c.isDigit = true) ∧
      natToDigitsGo fuel n [] ≠ [] := by
  induction n using Nat.strong_induction_on with
  | _ n ih =>
    intro fuel hpos hle
    obtain ⟨m, rfl⟩ : ∃ m, n = m + 1 := ⟨n - 1, by omega⟩
    obtain ⟨f, rfl⟩ : ∃ f, fuel = f + 1 := ⟨fuel - 1, by omega⟩
    have hmod : (m + 1) % 10 < 10 := Nat.mod_lt _ (by omega)
    simp only [natToDigitsGo]
    rw [natToDigitsGo_acc f ((m + 1) / 10) [Nat.digitChar ((m + 1) % 10)]]
    by_cases hq : (m + 1) / 10 = 0
    · have hz : natToDigitsGo f ((m + 1) / 10) [] = [] := by
        rw [hq]; cases f <;> rfl
      rw [hz, List.nil_append]
      refine ⟨?_, ?_, by simp⟩
      · rw [digitsToNat_singleton, digitVal_digitChar _ hmod]
        omega
      · intro c hc
        simp only [List.mem_singleton] at hc
        rw [hc]; exact isDigit_digitChar _ hmod
    · have hlt : (m + 1) / 10 < m + 1 := Nat.div_lt_self (by omega) (by omega)
      have hle' : (m + 1) / 10 ≤ f := by omega
      obtain ⟨ihv, ihd, ihne⟩ := ih ((m + 1) / 10) hlt f (by omega) hle'
      refine ⟨?_, ?_, by simp [ihne]⟩
      · rw [digitsToNat_append, ihv, List.length_singleton,
          digitsToNat_singleton, digitVal_digitChar _ hmod]
        omega
      · intro c hc
        rcases List.mem_append.mp hc with h | h
        · exact ihd c h
        · simp only [List.mem_singleton] at h
          rw [h]; exact isDigit_digitChar _ hmod

lemma digitsToNat_natToDigits (n : Nat) : digitsToNat (natToDigits n) = n := by
  unfold natToDigits
  by_cases h : n = 0
  · rw [if_pos h, h]; decide
  · rw [if_neg h]
    exact (natToDigitsGo_spec n n (by omega) (by omega)).1

lemma natToDigits_all_digits (n : Nat) :
    ∀ c ∈ natToDigits n, c.isDigit = true := by
  unfold natToDigits
  by_cases h : n = 0
  · rw [if_pos h]; intro c hc
    simp only [List.mem_singleton] at hc; rw [hc]; decide
  · rw [if_neg h]
    exact (natToDigitsGo_spec n n (by omega) (by omega)).2.1

lemma natToDigits_ne_nil (n : Nat) : natToDigits n ≠ [] := by
  unfold natToDigits
  by_cases h : n = 0
  · rw [if_pos h]; simp
  · rw [if_neg h]
    exact (natToDigitsGo_spec n n (by omega) (by omega)).2.2

/-! ### Lemmas: trimming, splitting and the amount regex -/

lemma takeWhile_append_all {p : Char → Bool} (a b : List Char)
    (h : ∀ c ∈ a, p c = true) : (a ++ b).takeWhile p = a ++ b.takeWhile p := by
  induction a with
  | nil => simp
  | cons c a ih =>
    simp only [List.cons_append, List.takeWhile_cons, h c (by simp)]
    simp only [if_true]
    rw [ih (fun d hd => h d (by simp [hd]))]

lemma dropWhile_append_all {p : Char → Bool} (a b : List Char)
    (h : ∀ c ∈ a, p c = true) : (a ++ b).dropWhile p = b.dropWhile p := by
  induction a with
  | nil => simp
  | cons c a ih =>
    simp only [List.cons_append, List.dropWhile_cons, h c (by simp)]
    simp only [if_true]
    exact ih (fun d hd => h d (by simp [hd]))

lemma dropWhile_eq_self_of_none {p : Char → Bool} (l : List Char)
    (h : ∀ c ∈ l, p c = false) : l.dropWhile p = l := by
  cases l with
  | nil => rfl
  | cons c l => simp [List.dropWhile_cons, h c (by simp)]

lemma dropWhile_head_false {p : Char → Bool} :
    ∀ (l : List Char) (c : Char) (rest : List Char),
      l.dropWhile p = c :: rest → p c = false := by
  intro l
  induction l with
  | nil => intro c rest h; simp [List.dropWhile] at h
  | cons a l ih =>
    intro c rest h
    rw [List.dropWhile_cons] at h
    by_cases ha : p a = true
    · rw [if_pos ha] at h; exact ih c rest h
    · rw [if_neg ha] at h
      obtain ⟨rfl, -⟩ := List.cons.inj h
      simpa using ha

lemma splitOnDot_no_dot (a : List Char) (h : ∀ c ∈ a, c ≠ '.') :
    splitOnDot a = [a] := by
  induction a with
  | nil => rfl
  | cons c a ih =>
    simp only [splitOnDot, if_neg (h c (by simp))]
    rw [ih (fun d hd => h d (by simp [hd]))]
    rfl

lemma splitOnDot_append_dot (a b : List Char) (h : ∀ c ∈ a, c ≠ '.') :
    splitOnDot (a ++ '.' :: b) = a :: splitOnDot b := by
  induction a with
  | nil => simp [splitOnDot]
  | cons c a ih =>
    simp only [List.cons_append, splitOnDot, if_neg (h c (by simp))]
    rw [List.append_eq, ih (fun d hd => h d (by simp [hd]))]
    rfl

lemma ne_dot_of_isDigit (c : Char) (h : c.isDigit = true) : c ≠ '.' := by
  intro heq
  rw [heq] at h
  exact absurd h (by decide)

lemma bne_dot_of_isDigit (c : Char) (h : c.isDigit = true) : (c != '.') = true := by
  simpa using ne_dot_of_isDigit c h

lemma digitsNonempty_chars (l : List Char) (h : digitsNonempty l = true) :
    ∀ c ∈ l, c.isDigit = true := by
  unfold digitsNonempty at h
  rw [Bool.and_eq_true, List.all_eq_true] at h
  exact h.2

lemma digitsNonempty_ne_nil (l : List Char) (h : digitsNonempty l = true) :
    l ≠ [] := by
  unfold digitsNonempty at h
  rw [Bool.and_eq_true] at h
  simpa using h.1

/-- Structural description of strings accepted by `^\d+(\.\d+)?$`:
either all digits, or digits-dot-digits; in each case `intPartOf`,
`fracPartOf` and `splitOnDot` compute the expected pieces. -/
lemma matches_cases (s : List Char) (hm : matchesAmountRegex s = true) :
    (digitsNonempty s = true ∧ intPartOf s = s ∧ fracPartOf s = [] ∧
      splitOnDot s = [s]) ∨
    (∃ I F, s = I ++ '.' :: F ∧ digitsNonempty I = true ∧
      digitsNonempty F = true ∧ intPartOf s = I ∧ fracPartOf s = F ∧
      splitOnDot s = [I, F]) := by
  unfold matchesAmountRegex at hm
  rcases hdrop : s.dropWhile (fun c => c != '.') with _ | ⟨c, frac⟩
  · left
    rw [hdrop] at hm
    have htake : s.takeWhile (fun c => c != '.') = s := by
      have := List.takeWhile_append_dropWhile (fun c => c != '.') s
      rw [hdrop, List.append_nil] at this
      exact this
    rw [htake] at hm
    have hdig := digitsNonempty_chars s hm
    refine ⟨hm, htake, ?_, ?_⟩
    · unfold fracPartOf; rw [hdrop]
    · exact splitOnDot_no_dot s (fun c hc => ne_dot_of_isDigit c (hdig c hc))
  · right
    have hc : c = '.' := by
      have := dropWhile_head_false s c frac hdrop
      simpa using this
    subst hc
    rw [hdrop] at hm
    set I := s.takeWhile (fun c => c != '.') with hI
    have hsplit : s = I ++ '.' :: frac := by
      have := List.takeWhile_append_dropWhile (fun c => c != '.') s
      rw [hdrop] at this
      exact this.symm
    rw [Bool.and_eq_true] at hm
    obtain ⟨hmI, hmF⟩ := hm
    have hdigI : ∀ c ∈ I, c.isDigit = true := digitsNonempty_chars I hmI
    have hdigF : ∀ c ∈ frac, c.isDigit = true := digitsNonempty_chars frac hmF
    have hIne : ∀ c ∈ I, c ≠ '.' := fun c hc => ne_dot_of_isDigit c (hdigI c hc)
    refine ⟨I, frac, hsplit, hmI, hmF, rfl, ?_, ?_⟩
    · unfold fracPartOf; rw [hdrop]
    · rw [hsplit, splitOnDot_append_dot I frac hIne,
        splitOnDot_no_dot frac (fun c hc => ne_dot_of_isDigit c (hdigF c hc))]

lemma matches_ne_nil (s : List Char) (hm : matchesAmountRegex s = true) :
    s ≠ [] := by
  rcases matches_cases s hm with ⟨h, -⟩ | ⟨I, F, hsplit, hI, -⟩
  · exact digitsNonempty_ne_nil s h
  · rw [hsplit]
    have := digitsNonempty_ne_nil I hI
    intro habs
    simp at habs

lemma matches_chars (s : List Char) (hm : matchesAmountRegex s = true) :
    ∀ c ∈ s, c.isDigit = true ∨ c = '.' := by
  rcases matches_cases s hm with ⟨h, -⟩ | ⟨I, F, hsplit, hI, hF, -⟩
  · intro c hc; exact Or.inl (digitsNonempty_chars s h c hc)
  · intro c hc
    rw [hsplit] at hc
    rcases List.mem_append.mp hc with h | h
    · exact Or.inl (digitsNonempty_chars I hI c h)
    · rcases List.mem_cons.mp h with h | h
      · exact Or.inr h
      · exact Or.inl (digitsNonempty_chars F hF c h)

lemma not_ws_of_digit_or_dot (c : Char) (h : c.isDigit = true ∨ c = '.') :
    isJsWhitespace c = false := by
  rcases h with h | h
  · have hrange : 48 ≤ c.toNat ∧ c.toNat ≤ 57 := by
      simp only [Char.isDigit, Bool.and_eq_true, decide_eq_true_eq,
        Char.le_def] at h
      exact ⟨h.1, h.2⟩
    unfold isJsWhitespace
    simp only [Bool.or_eq_false_iff, decide_eq_false_iff_not]
    omega
  · rw [h]; decide

lemma jsTrim_of_no_ws (s : List Char)
    (h : ∀ c ∈ s, isJsWhitespace c = false) : jsTrim s = s := by
  unfold jsTrim
  rw [dropWhile_eq_self_of_none s h,
    dropWhile_eq_self_of_none s.reverse (fun c hc => h c (List.mem_reverse.mp hc)),
    List.reverse_reverse]

lemma jsTrim_of_matches (s : List Char) (hm : matchesAmountRegex s = true) :
    jsTrim s = s :=
  jsTrim_of_no_ws s (fun c hc => not_ws_of_digit_or_dot c (matches_chars s hm c hc))

/-! ### Lemmas: `parseAmount` -/

/-- `parseAmount` rewritten with the destructured `split('.')` parts
replaced by the `takeWhile`/`dropWhile` decomposition. -/
lemma parseAmount_eq_canonical (s : List Char) (d : Nat) :
    parseAmount s d =
      (if (jsTrim s).isEmpty then .error .emptyAmount
       else if !matchesAmountRegex (jsTrim s) then .error .invalidAmountFormat
       else if d < (fracPartOf (jsTrim s)).length then
         .error .tooManyDecimalPlaces
       else
         .ok (digitsToNat
           (intPartOf (jsTrim s) ++ padEnd (fracPartOf (jsTrim s)) d '0'))) := by
  cases he : (jsTrim s).isEmpty with
  | true => simp [parseAmount, he]
  | false =>
    cases hm : matchesAmountRegex (jsTrim s) with
    | false => simp [parseAmount, he, hm]
    | true =>
      rcases matches_cases _ hm with
        ⟨hdig, hint, hfrac, hsp⟩ | ⟨I, F, hs, hI, hF, hint, hfrac, hsp⟩ <;>
        simp [parseAmount, he, hm, hsp, hint, hfrac]

lemma parseAmount_ok_of (s : List Char) (d : Nat)
    (hm : matchesAmountRegex (jsTrim s) = true)
    (hf : (fracPartOf (jsTrim s)).length ≤ d) :
    parseAmount s d =
      .ok (digitsToNat
        (intPartOf (jsTrim s) ++ padEnd (fracPartOf (jsTrim s)) d '0')) := by
  rw [parseAmount_eq_canonical]
  have hne : jsTrim s ≠ [] := matches_ne_nil _ hm
  have he : (jsTrim s).isEmpty = false := by simpa using hne
  rw [he, hm]
  simp only [Bool.false_eq_true, if_false, Bool.not_true, if_neg (by omega : ¬ d < (fracPartOf (jsTrim s)).length)]

lemma padEnd_length (l : List Char) (d : Nat) (h : l.length ≤ d) :
    (padEnd l d '0').length = d := by
  unfold padEnd
  rw [List.length_append, List.length_replicate]
  omega

lemma digitsToNat_padEnd (F : List Char) (d : Nat) :
    digitsToNat (padEnd F d '0') = digitsToNat F * 10 ^ (d - F.length) := by
  unfold padEnd
  rw [digitsToNat_append, digitsToNat_replicate_zero, List.length_replicate]
  omega

/-- Exact value of the concatenated integer-part / padded-fraction string:
it is the rational value of the decimal string scaled by `10 ^ d`. -/
lemma combined_value (I F : List Char) (d : Nat) (hF : F.length ≤ d) :
    (digitsToNat (I ++ padEnd F d '0') : ℚ) =
      ((digitsToNat I : ℚ) + (digitsToNat F : ℚ) / 10 ^ F.length) * 10 ^ d := by
  rw [digitsToNat_append, digitsToNat_padEnd, padEnd_length F d hF]
  push_cast
  have h10 : (10 : ℚ) ^ d = 10 ^ F.length * 10 ^ (d - F.length) := by
    rw [← pow_add]
    congr 1
    omega
  rw [h10]
  have hne : (10 : ℚ) ^ F.length ≠ 0 := by positivity
  field_simp
  ring

lemma decValue_def (s : List Char) :
    decValue s = (digitsToNat (intPartOf s) : ℚ) +
      (digitsToNat (fracPartOf s) : ℚ) / 10 ^ (fracPartOf s).length := rfl

/-- Inversion of a successful `parseAmount` call: the accepted shape of the
input and the exact value of the result. -/
lemma parseAmount_ok_inv (s : List Char) (d n : Nat)
    (h : parseAmount s d = .ok n) :
    matchesAmountRegex (jsTrim s) = true ∧
    (fracPartOf (jsTrim s)).length ≤ d ∧
    n = digitsToNat (intPartOf (jsTrim s) ++ padEnd (fracPartOf (jsTrim s)) d '0') ∧
    (n : ℚ) = decValue (jsTrim s) * 10 ^ d := by
  rw [parseAmount_eq_canonical] at h
  by_cases h1 : (jsTrim s).isEmpty
  · rw [if_pos h1] at h; exact absurd h (by simp)
  · rw [if_neg h1] at h
    by_cases h2 : matchesAmountRegex (jsTrim s)
    · rw [h2] at h
      simp only [Bool.not_true, Bool.false_eq_true, if_false] at h
      by_cases h3 : d < (fracPartOf (jsTrim s)).length
      · rw [if_pos h3] at h; exact absurd h (by simp)
      · rw [if_neg h3] at h
        have hn := (Except.ok.inj h).symm
        refine ⟨h2, by omega, hn, ?_⟩
        rw [hn, decValue_def, combined_value _ _ d (by omega)]
    · have h2' : matchesAmountRegex (jsTrim s) = false := by
        simpa using h2
      rw [h2'] at h
      simp at h

/-! ### Lemmas: `formatAmount` -/

lemma intPartOf_append_dot (a b : List Char)
    (h : ∀ c ∈ a, c.isDigit = true) : intPartOf (a ++ '.' :: b) = a := by
  unfold intPartOf
  rw [takeWhile_append_all a ('.' :: b) (fun c hc => bne_dot_of_isDigit c (h c hc))]
  simp [List.takeWhile_cons]

lemma fracPartOf_append_dot (a b : List Char)
    (h : ∀ c ∈ a, c.isDigit = true) : fracPartOf (a ++ '.' :: b) = b := by
  unfold fracPartOf
  rw [dropWhile_append_all a ('.' :: b) (fun c hc => bne_dot_of_isDigit c (h c hc))]
  simp [List.dropWhile_cons]

/-- Exact rational value of `formatAmount`: for any positive number of
decimals, the produced string reads back as `amount / 10 ^ decimals`. -/
lemma decValue_formatAmount (n d : Nat) (hd : 1 ≤ d) :
    decValue (formatAmount n d) = (n : ℚ) / 10 ^ d := by
  simp only [formatAmount]
  have hval : digitsToNat (natToDigits n) = n := digitsToNat_natToDigits n
  have hdig : ∀ c ∈ natToDigits n, c.isDigit = true := natToDigits_all_digits n
  by_cases hlen : (natToDigits n).length ≤ d
  · rw [if_pos hlen]
    have hPlen : (padStart (natToDigits n) d '0').length = d := by
      unfold padStart
      rw [List.length_append, List.length_replicate]
      omega
    have hPval : digitsToNat (padStart (natToDigits n) d '0') = n := by
      unfold padStart
      rw [digitsToNat_append, digitsToNat_replicate_zero, hval]
      omega
    have hint : intPartOf ('0' :: '.' :: padStart (natToDigits n) d '0') = ['0'] := by
      unfold intPartOf
      simp [List.takeWhile_cons]
    have hfrac : fracPartOf ('0' :: '.' :: padStart (natToDigits n) d '0') =
        padStart (natToDigits n) d '0' := by
      unfold fracPartOf
      simp [List.dropWhile_cons]
    rw [decValue_def, hint, hfrac, hPval, hPlen]
    have hz : digitsToNat ['0'] = 0 := by decide
    rw [hz]
    push_cast
    ring
  · rw [if_neg hlen]
    have hd0 : d ≠ 0 := by omega
    have hsl1 : jsSliceDropLast (natToDigits n) d =
        (natToDigits n).take ((natToDigits n).length - d) := by
      simp [jsSliceDropLast, hd0]
    have hsl2 : jsSliceLast (natToDigits n) d =
        (natToDigits n).drop ((natToDigits n).length - d) := by
      simp [jsSliceLast, hd0]
    rw [hsl1, hsl2]
    have hAdig : ∀ c ∈ (natToDigits n).take ((natToDigits n).length - d),
        c.isDigit = true := fun c hc => hdig c (List.mem_of_mem_take hc)
    rw [decValue_def, intPartOf_append_dot _ _ hAdig, fracPartOf_append_dot _ _ hAdig]
    have hBlen : ((natToDigits n).drop ((natToDigits n).length - d)).length = d := by
      rw [List.length_drop]
      omega
    have hsum : digitsToNat ((natToDigits n).take ((natToDigits n).length - d)) *
        10 ^ d + digitsToNat ((natToDigits n).drop ((natToDigits n).length - d)) = n := by
      conv_rhs => rw [← hval, ← List.take_append_drop ((natToDigits n).length - d) (natToDigits n)]
      rw [digitsToNat_append, hBlen]
    rw [hBlen]
    have h10 : (10 : ℚ) ^ d ≠ 0 := by positivity
    field_simp
    exact_mod_cast hsum

/-! ### Claims C1 – C3: the amount codec -/

/-- C1 (amended): the round-trip law of the amount codec holds for every
decimals count `d ≥ 1`: for every decimal string fully matching
`^\d+(\.\d+)?$` whose fractional part has at most `d` digits,
`formatAmount (parseAmount s d) d` is numerically equal to `s`.
(The claim's range `d ≥ 0` fails at `d = 0`, see the counterexample.) -/
theorem parse_format_roundtrip_pos_decimals (s : List Char) (d : Nat)
    (hd : 1 ≤ d) (hm : matchesAmountRegex s = true)
    (hf : (fracPartOf s).length ≤ d) :
    ∃ n : Nat, parseAmount s d = Except.ok n ∧
      decValue (formatAmount n d) = decValue s := by
  have ht : jsTrim s = s := jsTrim_of_matches s hm
  have hok := parseAmount_ok_of s d (by rw [ht]; exact hm) (by rw [ht]; exact hf)
  rw [ht] at hok
  refine ⟨_, hok, ?_⟩
  rw [decValue_formatAmount _ d hd, combined_value _ _ d hf, ← decValue_def]
  have h10 : (10 : ℚ) ^ d ≠ 0 := by positivity
  field_simp

theorem parse_format_roundtrip_pos_decimals_witness :
    (1 : Nat) ≤ 6 ∧ matchesAmountRegex ['1', '.', '5'] = true ∧
    (fracPartOf ['1', '.', '5']).length ≤ 6 ∧
    (∃ n : Nat, parseAmount ['1', '.', '5'] 6 = Except.ok n ∧
      decValue (formatAmount n 6) = decValue ['1', '.', '5']) :=
  ⟨by decide, by decide, by decide,
    parse_format_roundtrip_pos_decimals ['1', '.', '5'] 6 (by decide)
      (by decide) (by decide)⟩

/-- C1 counterexample: at `d = 0` the claim as stated fails.  The string
`"1"` matches the regex, has no fractional digits, and parses to `1`, but
`formatAmount 1 0` is `".1"` — JS `slice(0, -0)` is `slice(0, 0)` — whose
numeric value `1/10` differs from the value of `"1"`. -/
theorem parse_format_roundtrip_fails_at_zero_decimals :
    matchesAmountRegex ['1'] = true ∧ (fracPartOf ['1']).length ≤ 0 ∧
    parseAmount ['1'] 0 = Except.ok 1 ∧ formatAmount 1 0 = ['.', '1'] ∧
    decValue (formatAmount 1 0) ≠ decValue ['1'] := by
  refine ⟨by decide, by decide, by decide, by decide, ?_⟩
  have h : formatAmount 1 0 = ['.', '1'] := by decide
  rw [h]
  have h1 : intPartOf ['.', '1'] = [] := by decide
  have h2 : fracPartOf ['.', '1'] = ['1'] := by decide
  have h3 : intPartOf ['1'] = ['1'] := by decide
  have h4 : fracPartOf ['1'] = [] := by decide
  have h5 : digitsToNat ['1'] = 1 := by decide
  have h6 : digitsToNat ([] : List Char) = 0 := by decide
  simp only [decValue, h1, h2, h3, h4, h5, h6, List.length]
  norm_num

/-- C2: for every accepted input, `parseAmount` returns exactly the
integer obtained by right-padding the fractional part with zeros to
`decimals` digits and concatenating it after the integer part — i.e. the
exact value `decValue s * 10 ^ decimals`, with no rounding; in particular
`parseAmount "1.5" 6 = 1500000` and `parseAmount "0.000001" 6 = 1`. -/
theorem parseAmount_exact (s : List Char) (d n : Nat)
    (h : parseAmount s d = Except.ok n) :
    n = digitsToNat (intPartOf (jsTrim s) ++ padEnd (fracPartOf (jsTrim s)) d '0') ∧
    (n : ℚ) = decValue (jsTrim s) * 10 ^ d ∧
    parseAmount ['1', '.', '5'] 6 = Except.ok 1500000 ∧
    parseAmount ['0', '.', '0', '0', '0', '0', '0', '1'] 6 = Except.ok 1 := by
  obtain ⟨-, -, h1, h2⟩ := parseAmount_ok_inv s d n h
  exact ⟨h1, h2, by decide, by decide⟩

theorem parseAmount_exact_witness :
    parseAmount ['1', '.', '5'] 6 = Except.ok 1500000 ∧
    (1500000 = digitsToNat (intPartOf (jsTrim ['1', '.', '5']) ++
        padEnd (fracPartOf (jsTrim ['1', '.', '5'])) 6 '0') ∧
      ((1500000 : Nat) : ℚ) = decValue (jsTrim ['1', '.', '5']) * 10 ^ 6 ∧
      parseAmount ['1', '.', '5'] 6 = Except.ok 1500000 ∧
      parseAmount ['0', '.', '0', '0', '0', '0', '0', '1'] 6 = Except.ok 1) :=
  ⟨by decide, parseAmount_exact ['1', '.', '5'] 6 1500000 (by decide)⟩

/-- C3: classification of `parseAmount` results, following the order of the
checks in the source: `EmptyAmount` exactly on inputs blank after trimming;
`InvalidAmountFormat` exactly on non-blank trimmed inputs not fully
matching `^\d+(\.\d+)?$`; `TooManyDecimalPlaces` exactly on matching inputs
whose fractional part is longer than `decimals`; success on all others. -/
theorem parseAmount_failure_modes (s : List Char) (d : Nat) :
    (parseAmount s d = Except.error AmountError.emptyAmount ↔ jsTrim s = []) ∧
    (parseAmount s d = Except.error AmountError.invalidAmountFormat ↔
      (jsTrim s ≠ [] ∧ matchesAmountRegex (jsTrim s) = false)) ∧
    (parseAmount s d = Except.error AmountError.tooManyDecimalPlaces ↔
      (matchesAmountRegex (jsTrim s) = true ∧ d < (fracPartOf (jsTrim s)).length)) ∧
    ((∃ n, parseAmount s d = Except.ok n) ↔
      (matchesAmountRegex (jsTrim s) = true ∧ (fracPartOf (jsTrim s)).length ≤ d)) := by
  rw [parseAmount_eq_canonical]
  by_cases h1 : (jsTrim s).isEmpty
  · have h1' : jsTrim s = [] := by simpa using h1
    have hm : matchesAmountRegex ([] : List Char) = false := rfl
    simp [h1, h1', hm]
  · have h1' : jsTrim s ≠ [] := by simpa using h1
    cases hm : matchesAmountRegex (jsTrim s) with
    | false => simp [h1, h1', hm]
    | true =>
      by_cases h3 : d < (fracPartOf (jsTrim s)).length
      · simp only [h1, Bool.false_eq_true, if_false, hm, Bool.not_true,
          if_pos h3]
        refine ⟨by simp [h1'], by simp [h1'], by simp [h3], by simp; omega⟩
      · simp only [h1, Bool.false_eq_true, if_false, hm, Bool.not_true,
          if_neg h3]
        refine ⟨by simp [h1'], by simp [h1'], by simp [h3], by simp; omega⟩

/-! ### Hex decoding (Node `Buffer.from(s, 'hex')`) -/

/-- Value of a hex digit character, `none` for anything else. -/
def hexDigitVal (c : Char) : Option Nat :=
  let n := c.toNat
  if 48 ≤ n ∧ n ≤ 57 then some (n - 48)
  else if 97 ≤ n ∧ n ≤ 102 then some (n - 87)
  else if 65 ≤ n ∧ n ≤ 70 then some (n - 55)
  else none

/-- Value of a pair of hex digit characters as one byte, `none` when
either character is not a hex digit. -/
def hexPairVal (a b : Char) : Option Nat :=
  match hexDigitVal a with
  | none => none
  | some x =>
    match hexDigitVal b with
    | none => none
    | some y => some (16 * x + y)

/-- Node `Buffer.from(s, 'hex')`: decode successive pairs of hex digits
into bytes, stopping (without error) at the first invalid pair or at an
odd trailing character. -/
def hexDecode : List Char → List Nat
  | a :: b :: rest =>
    match hexPairVal a b with
    | some v => v :: hexDecode rest
    | none => []
  | _ => []

/-- Hex encoding of a byte list, two lowercase digits per byte (used by
the concrete witness SDK below). -/
def hexEncode : List Nat → List Char
  | [] => []
  | b :: rest => Nat.digitChar (b / 16) :: Nat.digitChar (b % 16) :: hexEncode rest

lemma hexDigitVal_lt (c : Char) (x : Nat) (h : hexDigitVal c = some x) :
    x < 16 := by
  simp only [hexDigitVal] at h
  split_ifs at h <;> (injection h with h'; omega)

lemma hexPairVal_lt (a b : Char) (v : Nat) (h : hexPairVal a b = some v) :
    v < 256 := by
  unfold hexPairVal at h
  rcases hx : hexDigitVal a with _ | x <;> rw [hx] at h
  · exact absurd h (by simp)
  · rcases hy : hexDigitVal b with _ | y <;> rw [hy] at h
    · exact absurd h (by simp)
    · injection h with h'
      have h1 := hexDigitVal_lt a x hx
      have h2 := hexDigitVal_lt b y hy
      omega

lemma hexDecode_bytes : ∀ (s : List Char), ∀ b ∈ hexDecode s, b < 256
  | [] => by simp [hexDecode]
  | [a] => by simp [hexDecode]
  | a :: b :: rest => by
    intro v hv
    rw [hexDecode] at hv
    rcases hp : hexPairVal a b with _ | w <;> rw [hp] at hv
    · simp at hv
    · rcases List.mem_cons.mp hv with h | h
      · rw [h]; exact hexPairVal_lt a b w hp
      · exact hexDecode_bytes rest v h

lemma hexDigitVal_digitChar (x : Nat) (h : x < 16) :
    hexDigitVal (Nat.digitChar x) = some x := by
  interval_cases x <;> decide

lemma hexPairVal_digitChar (v : Nat) (h : v < 256) :
    hexPairVal (Nat.digitChar (v / 16)) (Nat.digitChar (v % 16)) = some v := by
  have h1 : v / 16 < 16 := by omega
  have h2 : v % 16 < 16 := by omega
  have hv : 16 * (v / 16) + v % 16 = v := by omega
  unfold hexPairVal
  rw [hexDigitVal_digitChar _ h1, hexDigitVal_digitChar _ h2]
  simp [hv]

lemma hexDecode_hexEncode (bs : List Nat) (h : ∀ b ∈ bs, b < 256) :
    hexDecode (hexEncode bs) = bs := by
  induction bs with
  | nil => rfl
  | cons b rest ih =>
    have hb : b < 256 := h b (by simp)
    rw [hexEncode, hexDecode, hexPairVal_digitChar b hb,
      ih (fun v hv => h v (by simp [hv]))]

lemma hexEncode_length (bs : List Nat) :
    (hexEncode bs).length = 2 * bs.length := by
  induction bs with
  | nil => rfl
  | cons b rest ih =>
    simp only [hexEncode, List.length_cons, ih]
    omega

/-! ### The Web3Auth → Algorand account deriver (`algorandAdapter.ts`) -/

/-- The JS value the provider's `private_key` request resolves to, as far
as the adapter's `!privKey || typeof privKey !== 'string'` check can
distinguish it: null/undefined/empty-falsy, a string, or any other value. -/
inductive JsValue
  | nullish
  | strv (s : List Char)
  | otherValue
deriving DecidableEq

/-- The derived account record `{ address, mnemonic, secretKey }`. -/
structure AlgorandAccountFromWeb3Auth where
  address : List Char
  mnemonic : List Char
  secretKey : List Nat
deriving DecidableEq

/-- The external `algosdk` primitives consumed by the deriver, abstracted
as plain functions: the seed↔mnemonic word mapping and the ed25519
public-key/address derivation are library crypto, not repository code. -/
structure LedgerSDK where
  seedToMnemonic : List Nat → List Char
  mnemonicToSeed : List Char → List Nat
  seedToPublicKey : List Nat → List Nat
  publicKeyToAddress : List Nat → List Char

/-- A failure inside the deriver's `try` block. -/
inductive DerivationFailure
  | keyRetrievalFailed
  | badSeedLength
deriving DecidableEq

/-- The errors `getAlgorandAccount` can surface: the fail-fast
`ProviderRequired`, or any inner failure wrapped as
`AccountDerivationFailed`. -/
inductive AdapterError
  | providerRequired
  | accountDerivationFailed (cause : DerivationFailure)
deriving DecidableEq

/-- Modelled from the spec: `algosdk.secretKeyToMnemonic` (external
library) encodes a 32-byte private seed as a recovery mnemonic — spec
§4.2 step 3 — and fails on any other seed length; the actual word mapping
is the abstract `sdk.seedToMnemonic`. -/
def secretKeyToMnemonic (sdk : LedgerSDK) (seed : List Nat) :
    Except DerivationFailure (List Char) :=
  if seed.length = 32 then .ok (sdk.seedToMnemonic seed)
  else .error .badSeedLength

/-- Modelled from the spec: `algosdk.mnemonicToSecretKey` (external
library) recovers the seed from the mnemonic and derives the full key
pair — the 64-byte secret key is the 32-byte seed followed by the 32-byte
public key, and the address is derived from the public key (spec §3 and
§4.2 step 4).  Returns `(addr, sk)`. -/
def mnemonicToSecretKey (sdk : LedgerSDK) (m : List Char) :
    List Char × List Nat :=
  let seed := sdk.mnemonicToSeed m
  (sdk.publicKeyToAddress (sdk.seedToPublicKey seed),
    seed ++ sdk.seedToPublicKey seed)

/-- The `0x`-strip in `getAlgorandAccount`:
`privKey.startsWith('0x') ? privKey.slice(2) : privKey`. -/
def strip0x (s : List Char) : List Char :=
  if s.take 2 = ['0', 'x'] then s.drop 2 else s

/-- Embedding of `getAlgorandAccount(provider)`.  The provider argument is
`none` for a null/undefined handle, otherwise `some v` where `v` is the
value its single asynchronous `private_key` request resolves to.  The
second component counts the provider requests issued, making the
fail-fast path observable.  Every failure raised inside the `try` block
is wrapped as `accountDerivationFailed`; the null-provider check throws
before the block. -/
def getAlgorandAccount (sdk : LedgerSDK) (provider : Option JsValue) :
    Except AdapterError AlgorandAccountFromWeb3Auth × Nat :=
  match provider with
  | none => (.error .providerRequired, 0)
  | some resp =>
    let body : Except DerivationFailure AlgorandAccountFromWeb3Auth :=
      match resp with
      | .strv privKey =>
        if privKey.isEmpty then .error .keyRetrievalFailed
        else
          let cleanHexKey := strip0x privKey
          let privateKeyBytes := hexDecode cleanHexKey
          let ed25519SecretKey := privateKeyBytes.take 32
          match secretKeyToMnemonic sdk ed25519SecretKey with
          | .error e => .error e
          | .ok mnemonic =>
            let accountFromMnemonic := mnemonicToSecretKey sdk mnemonic
            .ok ⟨accountFromMnemonic.1, mnemonic, accountFromMnemonic.2⟩
      | _ => .error .keyRetrievalFailed
    match body with
    | .ok a => (.ok a, 1)
    | .error e => (.error (.accountDerivationFailed e), 1)

/-- Shared success computation for `getAlgorandAccount` on a hex key
string decoding to at least 32 bytes, assuming the SDK contract that the
mnemonic round-trips 32-byte seeds. -/
lemma getAlgorandAccount_ok (sdk : LedgerSDK)
    (hrt : ∀ seed : List Nat, seed.length = 32 → (∀ b ∈ seed, b < 256) →
      sdk.mnemonicToSeed (sdk.seedToMnemonic seed) = seed)
    (privKey : List Char)
    (hlen : 32 ≤ (hexDecode (strip0x privKey)).length) :
    getAlgorandAccount sdk (some (.strv privKey)) =
      (.ok ⟨sdk.publicKeyToAddress
          (sdk.seedToPublicKey ((hexDecode (strip0x privKey)).take 32)),
        sdk.seedToMnemonic ((hexDecode (strip0x privKey)).take 32),
        (hexDecode (strip0x privKey)).take 32 ++
          sdk.seedToPublicKey ((hexDecode (strip0x privKey)).take 32)⟩, 1) := by
  have hne : privKey.isEmpty = false := by
    rcases privKey with _ | ⟨c, rest⟩
    · exfalso
      simp [strip0x, hexDecode] at hlen
    · rfl
  have hseedlen : ((hexDecode (strip0x privKey)).take 32).length = 32 := by
    rw [List.length_take]
    omega
  have hbytes : ∀ b ∈ (hexDecode (strip0x privKey)).take 32, b < 256 :=
    fun b hb => hexDecode_bytes _ b (List.mem_of_mem_take hb)
  have hmn : secretKeyToMnemonic sdk ((hexDecode (strip0x privKey)).take 32) =
      .ok (sdk.seedToMnemonic ((hexDecode (strip0x privKey)).take 32)) := by
    unfold secretKeyToMnemonic
    rw [if_pos hseedlen]
  have hrec : sdk.mnemonicToSeed
      (sdk.seedToMnemonic ((hexDecode (strip0x privKey)).take 32)) =
      (hexDecode (strip0x privKey)).take 32 := hrt _ hseedlen hbytes
  simp only [getAlgorandAccount, hne, Bool.false_eq_true, if_false, hmn,
    mnemonicToSecretKey, hrec]

/-- C4: account derivation strips an optional `0x` prefix, hex-decodes,
and takes exactly the first 32 decoded bytes as the private seed —
succeeding without error when more bytes are present (silent truncation) —
and the returned `secretKey` is exactly 64 bytes, the seed followed by the
public key, with address and mnemonic derived deterministically from that
same seed. -/
theorem getAlgorandAccount_truncates_and_derives (sdk : LedgerSDK)
    (hpk : ∀ s : List Nat, s.length = 32 → (sdk.seedToPublicKey s).length = 32)
    (hrt : ∀ seed : List Nat, seed.length = 32 → (∀ b ∈ seed, b < 256) →
      sdk.mnemonicToSeed (sdk.seedToMnemonic seed) = seed)
    (privKey : List Char)
    (hlen : 32 ≤ (hexDecode (strip0x privKey)).length) :
    ∃ a, getAlgorandAccount sdk (some (.strv privKey)) = (.ok a, 1) ∧
      a.secretKey = (hexDecode (strip0x privKey)).take 32 ++
        sdk.seedToPublicKey ((hexDecode (strip0x privKey)).take 32) ∧
      a.secretKey.length = 64 ∧
      a.mnemonic = sdk.seedToMnemonic ((hexDecode (strip0x privKey)).take 32) ∧
      a.address = sdk.publicKeyToAddress
        (sdk.seedToPublicKey ((hexDecode (strip0x privKey)).take 32)) := by
  have hseedlen : ((hexDecode (strip0x privKey)).take 32).length = 32 := by
    rw [List.length_take]
    omega
  refine ⟨_, getAlgorandAccount_ok sdk hrt privKey hlen, rfl, ?_, rfl, rfl⟩
  rw [List.length_append, hseedlen, hpk _ hseedlen]

/-- C5: deterministic derivation — for any valid hex key material of 32 or
more bytes, deriving an account twice from the same provider-returned key
string yields identical address, mnemonic and secretKey. -/
theorem getAlgorandAccount_deterministic (sdk : LedgerSDK)
    (hrt : ∀ seed : List Nat, seed.length = 32 → (∀ b ∈ seed, b < 256) →
      sdk.mnemonicToSeed (sdk.seedToMnemonic seed) = seed)
    (privKey : List Char)
    (hlen : 32 ≤ (hexDecode (strip0x privKey)).length) :
    ∃ a₁ a₂, getAlgorandAccount sdk (some (.strv privKey)) = (.ok a₁, 1) ∧
      getAlgorandAccount sdk (some (.strv privKey)) = (.ok a₂, 1) ∧
      a₁.address = a₂.address ∧ a₁.mnemonic = a₂.mnemonic ∧
      a₁.secretKey = a₂.secretKey :=
  ⟨_, _, getAlgorandAccount_ok sdk hrt privKey hlen,
    getAlgorandAccount_ok sdk hrt privKey hlen, rfl, rfl, rfl⟩

/-- C6: a null/undefined provider fails with `ProviderRequired` before the
provider's key request is ever issued (zero requests made), and that
failure is not wrapped as `AccountDerivationFailed`. -/
theorem getAlgorandAccount_null_provider (sdk : LedgerSDK) :
    getAlgorandAccount sdk none = (.error .providerRequired, 0) ∧
    ∀ e, AdapterError.providerRequired ≠ AdapterError.accountDerivationFailed e :=
  ⟨rfl, fun _ h => AdapterError.noConfusion h⟩

/-- A concrete ledger SDK for the witnesses: mnemonics are hex strings (a
computably invertible encoding), the public key is a bytewise involution
of the seed, and addresses are hex strings of the public key. -/
def demoSDK : LedgerSDK where
  seedToMnemonic := hexEncode
  mnemonicToSeed := hexDecode
  seedToPublicKey := fun s => s.map (fun b => 255 - b % 256)
  publicKeyToAddress := hexEncode

lemma demoSDK_roundtrip : ∀ seed : List Nat, seed.length = 32 →
    (∀ b ∈ seed, b < 256) →
    demoSDK.mnemonicToSeed (demoSDK.seedToMnemonic seed) = seed :=
  fun seed _ hb => hexDecode_hexEncode seed hb

lemma demoSDK_pkLength : ∀ s : List Nat, s.length = 32 →
    (demoSDK.seedToPublicKey s).length = 32 := by
  intro s h
  simp [demoSDK]
  exact h

theorem getAlgorandAccount_truncates_and_derives_witness :
    32 ≤ (hexDecode (strip0x ('0' :: 'x' :: List.replicate 66 'a'))).length ∧
    (∃ a, getAlgorandAccount demoSDK
        (some (.strv ('0' :: 'x' :: List.replicate 66 'a'))) = (.ok a, 1) ∧
      a.secretKey = (hexDecode (strip0x ('0' :: 'x' :: List.replicate 66 'a'))).take 32 ++
        demoSDK.seedToPublicKey
          ((hexDecode (strip0x ('0' :: 'x' :: List.replicate 66 'a'))).take 32) ∧
      a.secretKey.length = 64 ∧
      a.mnemonic = demoSDK.seedToMnemonic
        ((hexDecode (strip0x ('0' :: 'x' :: List.replicate 66 'a'))).take 32) ∧
      a.address = demoSDK.publicKeyToAddress
        (demoSDK.seedToPublicKey
          ((hexDecode (strip0x ('0' :: 'x' :: List.replicate 66 'a'))).take 32))) :=
  ⟨by decide,
    getAlgorandAccount_truncates_and_derives demoSDK demoSDK_pkLength
      demoSDK_roundtrip ('0' :: 'x' :: List.replicate 66 'a') (by decide)⟩

theorem getAlgorandAccount_deterministic_witness :
    32 ≤ (hexDecode (strip0x (List.replicate 64 'b'))).length ∧
    (∃ a₁ a₂, getAlgorandAccount demoSDK
        (some (.strv (List.replicate 64 'b'))) = (.ok a₁, 1) ∧
      getAlgorandAccount demoSDK
        (some (.strv (List.replicate 64 'b'))) = (.ok a₂, 1) ∧
      a₁.address = a₂.address ∧ a₁.mnemonic = a₂.mnemonic ∧
      a₁.secretKey = a₂.secretKey) :=
  ⟨by decide,
    getAlgorandAccount_deterministic demoSDK demoSDK_roundtrip
      (List.replicate 64 'b') (by decide)⟩

/-! ### The transaction signer factory (`src/unnamed/part_000`) -/

/-- The runtime shape of an account's `secretKey` field as the
`instanceof Uint8Array` / `Array.isArray` checks in `createWeb3AuthSigner`
distinguish it: a typed byte array, a plain JS array of (non-negative
integral) numbers, a string, or anything else. -/
inductive SecretKeyValue
  | bytes (bs : List Nat)
  | numArray (ns : List Nat)
  | str (s : List Char)
  | otherValue
deriving DecidableEq

/-- An account record whose `secretKey` still has its runtime JS shape. -/
structure Web3AuthAccountJs where
  address : List Char
  mnemonic : List Char
  secretKey : SecretKeyValue
deriving DecidableEq

/-- The `(addr, sk)` closure handed to
`algosdk.makeBasicAccountTransactionSigner`. -/
structure BasicSigner where
  addr : List Char
  sk : List Nat
deriving DecidableEq

inductive SignerError
  | invalidSecretKeyType
deriving DecidableEq

/-- Embedding of `createWeb3AuthSigner(account)`: a `Uint8Array` secret
key is used as-is; a plain array is converted with `Uint8Array.from`
(each element reduced mod 256, JS ToUint8 on integral numbers); any other
shape throws.  The resulting signer is the `(addr, sk)` closure. -/
def createWeb3AuthSigner (account : Web3AuthAccountJs) :
    Except SignerError BasicSigner :=
  match account.secretKey with
  | .bytes bs => .ok ⟨account.address, bs⟩
  | .numArray ns => .ok ⟨account.address, ns.map (fun n => n % 256)⟩
  | _ => .error .invalidSecretKeyType

/-- C7: `createWeb3AuthSigner` accepts a byte-array secretKey as-is,
accepts a plain array of numbers by converting it to bytes, and fails
with `InvalidSecretKeyType` for every other shape (in particular a
string), producing no signer. -/
theorem createWeb3AuthSigner_secret_key_shapes :
    (∀ addr mn bs, createWeb3AuthSigner ⟨addr, mn, .bytes bs⟩ =
      .ok ⟨addr, bs⟩) ∧
    (∀ addr mn ns, createWeb3AuthSigner ⟨addr, mn, .numArray ns⟩ =
      .ok ⟨addr, ns.map (fun n => n % 256)⟩) ∧
    (∀ addr mn s, createWeb3AuthSigner ⟨addr, mn, .str s⟩ =
      .error .invalidSecretKeyType) ∧
    (∀ addr mn, createWeb3AuthSigner ⟨addr, mn, .otherValue⟩ =
      .error .invalidSecretKeyType) :=
  ⟨fun _ _ _ => rfl, fun _ _ _ => rfl, fun _ _ _ => rfl, fun _ _ => rfl⟩

/-! ### The signature verifier (`verifyWeb3AuthSignature`) -/

/-- The slice of a decoded signed transaction that
`verifyWeb3AuthSignature` inspects: an optional `sig` object with an
optional list of `signers` and an optional single `signer`. -/
structure TxnSigShape where
  signers : Option (List (List Nat))
  signer : Option (List Nat)
deriving DecidableEq

/-- A decoded signed transaction, as far as the verifier looks at it. -/
structure DecodedSignedTxn where
  sig : Option TxnSigShape
deriving DecidableEq

/-- The external `algosdk` decode primitives used by the verifier,
abstracted as functions; `none` models a decode that throws. -/
structure DecodeSDK where
  decodeSignedTransaction : List Nat → Option DecodedSignedTxn
  decodeAddress : List Char → Option (List Nat)

/-- The signer-extraction expression
`decodedTxn.sig?.signers?.[0] ?? decodedTxn.sig?.signer`: the first entry
of the signer list when present and non-empty, else the single signer,
else nothing. -/
def extractTxnSigner (dt : DecodedSignedTxn) : Option (List Nat) :=
  match dt.sig with
  | none => none
  | some sg =>
    match sg.signers with
    | some (pk :: _) => some pk
    | some [] => sg.signer
    | none => sg.signer

/-- Embedding of `verifyWeb3AuthSignature(signedTransaction, account)`:
decode the signed transaction, extract the signer public key, decode the
account address, and compare byte-for-byte; any decode failure and any
missing signer yield `false` via the surrounding `try`/`catch` — the
function always returns a boolean. -/
def verifyWeb3AuthSignature (sdk : DecodeSDK) (signedTransaction : List Nat)
    (account : Web3AuthAccountJs) : Bool :=
  match sdk.decodeSignedTransaction signedTransaction with
  | none => false
  | some decodedTxn =>
    match extractTxnSigner decodedTxn with
    | none => false
    | some txnSigner =>
      match sdk.decodeAddress account.address with
      | none => false
      | some pk => txnSigner == pk

/-- C8: `verifyWeb3AuthSignature` never throws (it is Boolean-total by
construction): it returns `false` on any decode failure of the signed
transaction, when no signer public key is present, and when the account
address cannot be decoded or its public key differs; it returns `true`
exactly when the extracted signer public key equals the account's decoded
public key byte-for-byte. -/
theorem verifyWeb3AuthSignature_spec (sdk : DecodeSDK)
    (tx : List Nat) (account : Web3AuthAccountJs) :
    (sdk.decodeSignedTransaction tx = none →
      verifyWeb3AuthSignature sdk tx account = false) ∧
    (∀ dt, sdk.decodeSignedTransaction tx = some dt →
      extractTxnSigner dt = none →
      verifyWeb3AuthSignature sdk tx account = false) ∧
    (∀ dt pk apk, sdk.decodeSignedTransaction tx = some dt →
      extractTxnSigner dt = some pk →
      sdk.decodeAddress account.address = some apk → pk ≠ apk →
      verifyWeb3AuthSignature sdk tx account = false) ∧
    (verifyWeb3AuthSignature sdk tx account = true ↔
      ∃ dt pk apk, sdk.decodeSignedTransaction tx = some dt ∧
        extractTxnSigner dt = some pk ∧
        sdk.decodeAddress account.address = some apk ∧ pk = apk) := by
  refine ⟨?_, ?_, ?_, ?_⟩
  · intro h
    simp only [verifyWeb3AuthSignature, h]
  · intro dt hdt hs
    simp only [verifyWeb3AuthSignature, hdt, hs]
  · intro dt pk apk hdt hs ha hne
    simp only [verifyWeb3AuthSignature, hdt, hs, ha, beq_eq_false_iff_ne, ne_eq]
    simpa using hne
  · unfold verifyWeb3AuthSignature
    rcases hdt : sdk.decodeSignedTransaction tx with _ | dt
    · simp [hdt]
    · rcases hs : extractTxnSigner dt with _ | pk
      · simp [hdt, hs]
      · rcases ha : sdk.decodeAddress account.address with _ | apk
        · simp [hdt, hs, ha]
        · simp [hdt, hs, ha, beq_iff_eq]

theorem verifyWeb3AuthSignature_spec_witness :
    (DecodeSDK.mk (fun _ => none) (fun _ => none)).decodeSignedTransaction [0] = none ∧
    verifyWeb3AuthSignature (DecodeSDK.mk (fun _ => none) (fun _ => none)) [0]
      ⟨['A'], [], .bytes []⟩ = false :=
  ⟨rfl, (verifyWeb3AuthSignature_spec (DecodeSDK.mk (fun _ => none) (fun _ => none))
    [0] ⟨['A'], [], .bytes []⟩).1 rfl⟩

/-! ### The batch signer (`createAlgorandSigner`, algorandAdapter.ts) -/

inductive SigningError
  | transactionSigningFailed (msg : List Char)
deriving DecidableEq

/-- Embedding of the function returned by `createAlgorandSigner(secretKey)`:
loop over the transactions in input order; sign each with the external
`algosdk.signTransaction` (abstracted as the parameter `sign`, whose
`Except` error carries the thrown message); push each signed blob; a
failure on any single transaction rethrows as `TransactionSigningFailed`
and aborts the whole batch. -/
def createAlgorandSigner
    (sign : List Nat → List Nat → Except (List Char) (List Nat))
    (secretKey : List Nat) :
    List (List Nat) → Except SigningError (List (List Nat))
  | [] => .ok []
  | txn :: rest =>
    match sign txn secretKey with
    | .error msg => .error (.transactionSigningFailed msg)
    | .ok blob =>
      match createAlgorandSigner sign secretKey rest with
      | .error e => .error e
      | .ok blobs => .ok (blob :: blobs)

/-- C9: the batch signer processes the list sequentially in input order —
when every transaction signs, the output is the input-order list of blobs
(same length); when any transaction fails, the first failure aborts the
whole call with `TransactionSigningFailed` wrapping that transaction's
failure, and no partial result is returned. -/
theorem createAlgorandSigner_batch_semantics
    (sign : List Nat → List Nat → Except (List Char) (List Nat))
    (sk : List Nat) :
    (∀ (txns : List (List Nat)) (f : List Nat → List Nat),
      (∀ t ∈ txns, sign t sk = .ok (f t)) →
      createAlgorandSigner sign sk txns = .ok (txns.map f)) ∧
    (∀ (pre : List (List Nat)) (t : List Nat) (post : List (List Nat))
        (msg : List Char),
      (∀ u ∈ pre, ∃ b, sign u sk = .ok b) → sign t sk = .error msg →
      createAlgorandSigner sign sk (pre ++ t :: post) =
        .error (.transactionSigningFailed msg)) ∧
    (∀ (txns blobs : List (List Nat)),
      createAlgorandSigner sign sk txns = .ok blobs →
      blobs.length = txns.length) := by
  refine ⟨?_, ?_, ?_⟩
  · intro txns
    induction txns with
    | nil => intro f _; rfl
    | cons t rest ih =>
      intro f h
      rw [createAlgorandSigner, h t (by simp),
        ih f (fun u hu => h u (by simp [hu]))]
      rfl
  · intro pre
    induction pre with
    | nil =>
      intro t post msg _ ht
      rw [List.nil_append, createAlgorandSigner, ht]
    | cons u pre ih =>
      intro t post msg hpre ht
      obtain ⟨b, hb⟩ := hpre u (by simp)
      rw [List.cons_append, createAlgorandSigner, hb,
        ih t post msg (fun v hv => hpre v (by simp [hv])) ht]
  · intro txns
    induction txns with
    | nil =>
      intro blobs h
      rw [createAlgorandSigner] at h
      obtain rfl := Except.ok.inj h
      rfl
    | cons t rest ih =>
      intro blobs h
      rw [createAlgorandSigner] at h
      rcases hs : sign t sk with msg | blob <;> rw [hs] at h
      · exact absurd h (by simp)
      · rcases hr : createAlgorandSigner sign sk rest with e | blobs' <;>
          rw [hr] at h
        · exact absurd h (by simp)
        · obtain rfl := Except.ok.inj h
          simp [ih blobs' hr]

def demoSign (txn sk : List Nat) : Except (List Char) (List Nat) :=
  .ok (txn ++ sk)

theorem createAlgorandSigner_batch_semantics_witness :
    (∀ t ∈ [[1], [2, 3]], demoSign t [9] = .ok (t ++ [9])) ∧
    createAlgorandSigner demoSign [9] [[1], [2, 3]] =
      .ok [[1, 9], [2, 3, 9]] := by
  refine ⟨by decide, ?_⟩
  have h := (createAlgorandSigner_batch_semantics demoSign [9]).1
    [[1], [2, 3]] (fun t => t ++ [9]) (by decide)
  simpa using h

/-! ### `analyzeTransactionGroup` -/

/-- A JS `number` as far as this aggregate needs it: a real value, `NaN`,
or a signed infinity (the values `x / 0` can produce). -/
inductive JsNumber
  | real (q : ℚ)
  | nan
  | posInf
  | negInf
deriving DecidableEq

/-- JS division on numbers: division by zero yields `NaN` for a zero
numerator and a signed infinity otherwise; any non-real operand yields
`NaN` (sufficient for the uses here). -/
def jsDiv : JsNumber → JsNumber → JsNumber
  | .real a, .real b =>
    if b = 0 then
      if a = 0 then .nan else if 0 < a then .posInf else .negInf
    else .real (a / b)
  | _, _ => .nan

/-- The record returned by `analyzeTransactionGroup`. -/
structure TxnGroupStats where
  count : Nat
  totalSize : Nat
  averageSize : JsNumber
deriving DecidableEq

/-- Embedding of `analyzeTransactionGroup(transactions)`: the count, the
total byte size (a `reduce` with initial value 0), and the average
computed by an unguarded division of total size by count. -/
def analyzeTransactionGroup (transactions : List (List Nat)) : TxnGroupStats :=
  { count := transactions.length
    totalSize := transactions.foldl (fun sum txn => sum + txn.length) 0
    averageSize := jsDiv
      (.real ((transactions.foldl (fun sum txn => sum + txn.length) 0 : Nat) : ℚ))
      (.real (transactions.length : ℚ)) }

lemma foldl_length_eq_sum (l : List (List Nat)) :
    ∀ acc : Nat, l.foldl (fun sum txn => sum + txn.length) acc =
      acc + (l.map List.length).sum := by
  induction l with
  | nil => intro acc; simp
  | cons t rest ih =>
    intro acc
    rw [List.foldl_cons, ih (acc + t.length)]
    simp [List.map_cons, List.sum_cons]
    omega

/-- C10: `analyzeTransactionGroup` is a pure aggregate — for every
non-empty list it returns the list length, the sum of the blob byte
lengths, and their exact quotient as the average; on the empty list the
unguarded `0 / 0` division is performed, whose JS value is `NaN`. -/
theorem analyzeTransactionGroup_aggregate (transactions : List (List Nat))
    (h : transactions ≠ []) :
    (analyzeTransactionGroup transactions).count = transactions.length ∧
    (analyzeTransactionGroup transactions).totalSize =
      (transactions.map List.length).sum ∧
    (analyzeTransactionGroup transactions).averageSize =
      .real (((transactions.map List.length).sum : ℚ) /
        (transactions.length : ℚ)) ∧
    (analyzeTransactionGroup []).averageSize = JsNumber.nan := by
  have hfold : transactions.foldl (fun sum txn => sum + txn.length) 0 =
      (transactions.map List.length).sum := by
    rw [foldl_length_eq_sum transactions 0]
    omega
  have hlen : (transactions.length : ℚ) ≠ 0 := by
    have hne : transactions.length ≠ 0 := fun h0 => h (List.length_eq_zero.mp h0)
    exact_mod_cast hne
  refine ⟨rfl, hfold, ?_, rfl⟩
  simp only [analyzeTransactionGroup, jsDiv, if_neg hlen, hfold]

theorem analyzeTransactionGroup_aggregate_witness :
    ([[1, 2], [3]] : List (List Nat)) ≠ [] ∧
    ((analyzeTransactionGroup [[1, 2], [3]]).count = 2 ∧
      (analyzeTransactionGroup [[1, 2], [3]]).totalSize = 3 ∧
      (analyzeTransactionGroup [[1, 2], [3]]).averageSize =
        .real ((3 : ℚ) / (2 : ℚ)) ∧
      (analyzeTransactionGroup []).averageSize = JsNumber.nan) := by
  refine ⟨by decide, ?_⟩
  have h := analyzeTransactionGroup_aggregate [[1, 2], [3]] (by decide)
  simpa using h

end RwaAdapter
